import Mathlib

/-!
# urlshort: path-to-URL redirect handlers

A shallow embedding of `handler.go` (package `urlshort`) and the properties of its
handlers: `MapHandler`, `YAMLHandler`, `JSONHandler`, `parseYaml`, `parseJSON` and
`pathURLToMap`.

Conventions of the embedding.

* A Go `map[string]string` is either the nil map or a reference to a table, a finite
  unordered set of keys with one value each.
* A Go slice `[]pathURL` is a list; the nil slice is the empty list.
* A Go `error` is `Option GoError`, with `none` for `nil`.
* A computation that can panic at run time returns `Option`, with `none` for the panic.
* The standard library and the fallback handler are outside the package.  A call that
  leaves the package (`http.Redirect`, `fallback.ServeHTTP`) is recorded, with its
  arguments, in the list of calls a handler invocation returns; the two decoders
  (`yaml.Unmarshal`, `json.Unmarshal`) are parameters.
* A Go map is a reference and `MapHandler` does not copy its argument, so the fallback
  may hold the very map the closure reads.  What `fallback.ServeHTTP` does to that map
  is a parameter (`MapEffect`) of every handler invocation.
-/

namespace urlshort

/-! ## Go maps -/

/-- Contents of a non-nil `map[string]string`. -/
abbrev Table := Finmap (fun _ : String => String)

/-- A value of type `map[string]string`. -/
inductive GoMap where
  | nil
  | table (t : Table)
  deriving DecidableEq

namespace GoMap

/-- The builtin `make(map[string]string)`: a fresh table with no keys. -/
def make : GoMap := table ∅

/-- The comma-ok index expression `v, ok := m[k]`.  A missing key, and every key of the
nil map, reads as the zero value `""` with `ok = false`. -/
def index (m : GoMap) (k : String) : String × Bool :=
  match m with
  | nil => ("", false)
  | table t =>
    match t.lookup k with
    | some v => (v, true)
    | none => ("", false)

/-- The assignment `m[k] = v`.  Assigning to an entry of the nil map panics. -/
def assign (m : GoMap) (k v : String) : Option GoMap :=
  match m with
  | nil => none
  | table t => some (table (t.insert k v))

/-- The set of keys of a map; the nil map has none. -/
def keys (m : GoMap) : Finset String :=
  match m with
  | nil => ∅
  | table t => t.keys

/-- The builtin `len(m)`: the number of keys. -/
def len (m : GoMap) : Nat := m.keys.card

end GoMap

/-! ## Data and the standard-library boundary -/

/-- The struct `pathURL`. -/
structure pathURL where
  Path : String
  URL : String
  deriving DecidableEq, Repr

/-- The part of `net/url.URL` the package reads. -/
structure NetURL where
  Path : String
  deriving DecidableEq, Repr

/-- The part of `net/http.Request` the package reads: `r.URL.Path`. -/
structure Request where
  URL : NetURL
  deriving DecidableEq, Repr

/-- A non-nil `error` value. -/
structure GoError where
  msg : String
  deriving DecidableEq, Repr

/-- The constant `http.StatusFound`. -/
def StatusFound : Nat := 302

/-- A call that leaves the package, with its arguments.  `W` is the type of response
writers and `H` the type of (non-nil) fallback handlers. -/
inductive Call (W H : Type) where
  | Redirect (w : W) (r : Request) (url : String) (code : Nat)
  | ServeHTTP (h : H) (w : W) (r : Request)
  deriving DecidableEq

/-- A decoder such as `yaml.Unmarshal(in, out)` or `json.Unmarshal(in, out)`, with `out`
a `*[]pathURL`: from the input bytes and the slice `out` points to, the slice it leaves
there and the error it returns. -/
abbrev Unmarshal := List UInt8 → List pathURL → List pathURL × Option GoError

/-- What a fallback handler does to the map the closure shares with its caller:
`eff f w r t` is the table after `f.ServeHTTP(w, r)` when it was `t` before.  A fallback
that holds no reference to the map gives the identity. -/
abbrev MapEffect (W H : Type) := H → W → Request → Table → Table

/-- The map `m` after code that holds a reference to it has run, `g` being what that
code does to the table.  The nil map has no table to write to. -/
def GoMap.update (m : GoMap) (g : Table → Table) : GoMap :=
  match m with
  | GoMap.nil => GoMap.nil
  | GoMap.table t => GoMap.table (g t)

/-! ## The package -/

/-- The value `MapHandler` returns: the function literal together with the two
variables it captures. -/
structure HandlerFunc (H : Type) where
  pathsToUrls : GoMap
  fallback : H
  deriving DecidableEq

/-- The function `MapHandler`: it builds the closure over `pathsToUrls` and `fallback`;
the body of the closure is `HandlerFunc.call`. -/
def MapHandler {H : Type} (pathsToUrls : GoMap) (fallback : H) : HandlerFunc H :=
  HandlerFunc.mk pathsToUrls fallback

/-- One invocation `h(w, r)` of the function literal in `MapHandler`.  It returns the
captured variables as the invocation leaves them and the calls it made, in order.  The
body itself only reads the map; `fallback.ServeHTTP(w, r)` runs inside the invocation and
leaves the shared map as `eff` says. -/
def HandlerFunc.call {W H : Type} (h : HandlerFunc H) (eff : MapEffect W H) (w : W)
    (r : Request) : HandlerFunc H × List (Call W H) :=
  let path := r.URL.Path
  match h.pathsToUrls.index path with
  | (dest, true) => (h, [Call.Redirect w r dest StatusFound])
  | (_, false) =>
    (HandlerFunc.mk (h.pathsToUrls.update (eff h.fallback w r)) h.fallback,
      [Call.ServeHTTP h.fallback w r])

/-- A run of invocations of one handler, one after the other, each on the captured
variables the previous one left: the final captured variables and the calls of each
invocation. -/
def HandlerFunc.serveAll {W H : Type} (h : HandlerFunc H) (eff : MapEffect W H) :
    List (W × Request) → HandlerFunc H × List (List (Call W H))
  | [] => (h, [])
  | (w, r) :: rest =>
    let (h1, calls) := h.call eff w r
    let (h2, more) := HandlerFunc.serveAll h1 eff rest
    (h2, calls :: more)

/-- The loop `for _, pu := range *pathUrls { ret[pu.Path] = pu.URL }` of `pathURLToMap`,
from the current value of `ret`. -/
def pathURLToMap.loop : GoMap → List pathURL → Option GoMap
  | ret, [] => some ret
  | ret, pu :: rest =>
    match ret.assign pu.Path pu.URL with
    | none => none
    | some ret1 => pathURLToMap.loop ret1 rest

/-- The function `pathURLToMap`. -/
def pathURLToMap (pathUrls : List pathURL) : Option GoMap :=
  let ret := GoMap.make
  pathURLToMap.loop ret pathUrls

/-- The function `parseYaml`, over the decoder `yaml.Unmarshal`: the slice left in
`*pathUrls` and the returned error. -/
def parseYaml (yamlUnmarshal : Unmarshal) (yml : List UInt8) (pathUrls : List pathURL) :
    List pathURL × Option GoError :=
  match yamlUnmarshal yml pathUrls with
  | (out, some err) => (out, some err)
  | (out, none) => (out, none)

/-- The function `parseJSON`, over the decoder `json.Unmarshal`: the slice left in
`*pathUrls` and the returned error. -/
def parseJSON (jsonUnmarshal : Unmarshal) (jsn : List UInt8) (pathUrls : List pathURL) :
    List pathURL × Option GoError :=
  match jsonUnmarshal jsn pathUrls with
  | (out, some err) => (out, some err)
  | (out, none) => (out, none)

/-- The function `YAMLHandler`.  The result is the pair (handler, error), where the
handler `none` is the nil function value; the outer `none` is a run-time panic. -/
def YAMLHandler {H : Type} (yamlUnmarshal : Unmarshal) (yml : List UInt8) (fallback : H) :
    Option (Option (HandlerFunc H) × Option GoError) :=
  let pathUrls : List pathURL := []
  match parseYaml yamlUnmarshal yml pathUrls with
  | (_, some err) => some (none, some err)
  | (pathUrls, none) =>
    match pathURLToMap pathUrls with
    | none => none
    | some pathsToUrls => some (some (MapHandler pathsToUrls fallback), none)

/-- The function `JSONHandler`, with the same conventions as `YAMLHandler`. -/
def JSONHandler {H : Type} (jsonUnmarshal : Unmarshal) (jsn : List UInt8) (fallback : H) :
    Option (Option (HandlerFunc H) × Option GoError) :=
  let pathUrls : List pathURL := []
  match parseJSON jsonUnmarshal jsn pathUrls with
  | (_, some err) => some (none, some err)
  | (pathUrls, none) =>
    match pathURLToMap pathUrls with
    | none => none
    | some pathsToUrls => some (some (MapHandler pathsToUrls fallback), none)

/-! ## The specification's reading of record-to-map conversion -/

/-- The map after the assignments `mapping[r[i].Path] = r[i].URL` for `i = 0 .. n-1`,
in order, starting from the empty map (the specification's sequential assignment). -/
def seqAssign (r : List pathURL) : Nat → Option GoMap
  | 0 => some GoMap.make
  | n + 1 =>
    match seqAssign r n, r[n]? with
    | some mapping, some pu => mapping.assign pu.Path pu.URL
    | some mapping, none => some mapping
    | none, _ => none

/-- The URL of the last record of `r` whose `Path` is `p`, if there is one. -/
def lastURL (r : List pathURL) (p : String) : Option String :=
  match r with
  | [] => none
  | pu :: rest =>
    match lastURL rest p with
    | some u => some u
    | none => if pu.Path = p then some pu.URL else none

/-- The table after inserting the records of `r`, in order, into `t`. -/
def insertAll (t : Table) (r : List pathURL) : Table :=
  r.foldl (fun acc pu => acc.insert pu.Path pu.URL) t

/-- The calls the specification expects of one invocation of the handler built from the
mapping `m` and the fallback `f`: a single redirect to `m[p]` with status 302 when the
request path `p` is a key of `m`, a single call of the fallback otherwise. -/
def expectedCalls {W H : Type} (m : GoMap) (f : H) (w : W) (r : Request) : List (Call W H) :=
  if r.URL.Path ∈ m.keys then [Call.Redirect w r (m.index r.URL.Path).1 302]
  else [Call.ServeHTTP f w r]

/-! ## Concrete inputs of the worked examples -/

/-- The records `[(/a, X), (/b, Y), (/a, Z)]`. -/
def recsABA : List pathURL := [⟨"/a", "X"⟩, ⟨"/b", "Y"⟩, ⟨"/a", "Z"⟩]

/-- The records `[(/foo, https://foo.com)]`. -/
def recsFoo : List pathURL := [⟨"/foo", "https://foo.com"⟩]

/-- The bytes of the YAML document `- path: /foo\n  url: https://foo.com`. -/
def yamlFoo : List UInt8 :=
  [45, 32, 112, 97, 116, 104, 58, 32, 47, 102, 111, 111, 10, 32, 32, 117, 114, 108, 58, 32,
   104, 116, 116, 112, 115, 58, 47, 47, 102, 111, 111, 46, 99, 111, 109]

/-- The bytes of a JSON document: an array of one object, with path `/foo` and url
`https://foo.com`. -/
def jsonFoo : List UInt8 :=
  [91, 123, 34, 112, 97, 116, 104, 34, 58, 34, 47, 102, 111, 111, 34, 44, 34, 117, 114, 108,
   34, 58, 34, 104, 116, 116, 112, 115, 58, 47, 47, 102, 111, 111, 46, 99, 111, 109, 34, 125,
   93]

/-- A decoder that knows one YAML document, `yamlFoo`; on any other input it fails
after having stored one record. -/
def yamlDecoderFoo : Unmarshal := fun b _ =>
  if b = yamlFoo then (recsFoo, none)
  else ([⟨"/partial", "https://partial.example"⟩], some ⟨"yaml: did not find expected node content"⟩)

/-- A decoder that knows one JSON document, `jsonFoo`; on any other input it fails
after having stored one record. -/
def jsonDecoderFoo : Unmarshal := fun b _ =>
  if b = jsonFoo then (recsFoo, none)
  else ([⟨"/partial", "https://partial.example"⟩], some ⟨"unexpected end of JSON input"⟩)

/-- The bytes of the malformed YAML document `- path: /foo\n  url: [`, whose flow
sequence is never closed. -/
def yamlUnterminated : List UInt8 :=
  [45, 32, 112, 97, 116, 104, 58, 32, 47, 102, 111, 111, 10, 32, 32, 117, 114, 108, 58, 32,
   91]

/-- The first 20 bytes of `jsonFoo`: an array that is cut off inside its first object. -/
def jsonTruncated : List UInt8 := jsonFoo.take 20

/-- A fallback that holds no reference to the map: it leaves every table as it is. -/
def noEffect : MapEffect Nat String := fun _ _ _ t => t

/-- A fallback that holds the map the closure reads and executes
`m[r.URL.Path] = "https://stored.example"` on every request it is given. -/
def storeEffect : MapEffect Nat String :=
  fun _ _ r t => t.insert r.URL.Path "https://stored.example"

/-- The mapping of the specification's scenario. -/
def godocMap : GoMap :=
  GoMap.table (Finmap.singleton "/urlshort-godoc" "https://godoc.org/github.com/gophercises/urlshort")

/-! ## Lemmas on maps and on the conversion loop -/

theorem GoMap.index_table (t : Table) (k : String) :
    (GoMap.table t).index k = ((t.lookup k).getD "", (t.lookup k).isSome) := by
  simp only [GoMap.index]
  cases t.lookup k <;> rfl

theorem GoMap.index_snd_iff (m : GoMap) (k : String) : (m.index k).2 = true ↔ k ∈ m.keys := by
  cases m with
  | nil => simp [GoMap.index, GoMap.keys]
  | table t =>
    rw [GoMap.index_table]
    simp [GoMap.keys, Finmap.mem_keys, Finmap.lookup_isSome]

theorem call_eq_expected {W H : Type} (m : GoMap) (f : H) (eff : MapEffect W H) (w : W)
    (r : Request) :
    (MapHandler m f).call eff w r =
      (MapHandler (if r.URL.Path ∈ m.keys then m else m.update (eff f w r)) f,
        expectedCalls m f w r) := by
  have hk := GoMap.index_snd_iff m r.URL.Path
  unfold HandlerFunc.call expectedCalls
  simp only [MapHandler, StatusFound]
  rcases hidx : m.index r.URL.Path with ⟨dest, ok⟩
  rw [hidx] at hk
  cases ok with
  | true => simp [hk.mp rfl]
  | false =>
    have : r.URL.Path ∉ m.keys := fun h => by simpa using hk.mpr h
    simp [this]

theorem call_snd {W H : Type} (m : GoMap) (f : H) (eff : MapEffect W H) (w : W)
    (r : Request) : ((MapHandler m f).call eff w r).2 = expectedCalls m f w r := by
  rw [call_eq_expected]

theorem call_fst_of_frame {W H : Type} (m : GoMap) (f : H) (eff : MapEffect W H)
    (hf : ∀ (w : W) (r : Request), r.URL.Path ∉ m.keys → m.update (eff f w r) = m)
    (w : W) (r : Request) : ((MapHandler m f).call eff w r).1 = MapHandler m f := by
  rw [call_eq_expected]
  by_cases hk : r.URL.Path ∈ m.keys
  · simp [hk]
  · simp [hk, hf w r hk]

theorem serveAll_fst {W H : Type} (m : GoMap) (f : H) (eff : MapEffect W H)
    (hf : ∀ (w : W) (r : Request), r.URL.Path ∉ m.keys → m.update (eff f w r) = m)
    (reqs : List (W × Request)) :
    ((MapHandler m f).serveAll eff reqs).1 = MapHandler m f := by
  induction reqs with
  | nil => rfl
  | cons q rest ih =>
    obtain ⟨w, r⟩ := q
    have h1 := call_fst_of_frame m f eff hf w r
    simp only [HandlerFunc.serveAll]
    rw [h1]
    exact ih

theorem insertAll_nil (t : Table) : insertAll t [] = t := rfl

theorem insertAll_cons (t : Table) (pu : pathURL) (r : List pathURL) :
    insertAll t (pu :: r) = insertAll (t.insert pu.Path pu.URL) r := rfl

theorem insertAll_append (t : Table) (r1 r2 : List pathURL) :
    insertAll t (r1 ++ r2) = insertAll (insertAll t r1) r2 := by
  simp [insertAll, List.foldl_append]

theorem loop_table (t : Table) (r : List pathURL) :
    pathURLToMap.loop (GoMap.table t) r = some (GoMap.table (insertAll t r)) := by
  induction r generalizing t with
  | nil => rfl
  | cons pu rest ih =>
    simp only [pathURLToMap.loop, GoMap.assign, insertAll_cons]
    exact ih _

theorem pathURLToMap_eq (r : List pathURL) :
    pathURLToMap r = some (GoMap.table (insertAll ∅ r)) := by
  simp only [pathURLToMap, GoMap.make]
  exact loop_table ∅ r

theorem lookup_insertAll (t : Table) (r : List pathURL) (k : String) :
    (insertAll t r).lookup k = (lastURL r k).orElse (fun _ => t.lookup k) := by
  induction r generalizing t with
  | nil => simp [insertAll_nil, lastURL]
  | cons pu rest ih =>
    rw [insertAll_cons, ih, lastURL]
    cases hl : lastURL rest k with
    | some u => simp
    | none =>
      by_cases hp : pu.Path = k
      · subst hp
        simp [Finmap.lookup_insert]
      · have hne : k ≠ pu.Path := fun h => hp h.symm
        simp [hp, Finmap.lookup_insert_of_ne _ hne]

theorem keys_insertAll (t : Table) (r : List pathURL) :
    (insertAll t r).keys = t.keys ∪ (r.map pathURL.Path).toFinset := by
  induction r generalizing t with
  | nil => simp [insertAll_nil]
  | cons pu rest ih =>
    rw [insertAll_cons, ih]
    ext k
    simp [Finmap.mem_keys, Finmap.mem_insert]
    tauto

theorem lastURL_eq_none {r : List pathURL} {p : String} :
    lastURL r p = none ↔ ∀ pu ∈ r, pu.Path ≠ p := by
  induction r with
  | nil => simp [lastURL]
  | cons pu rest ih =>
    rw [lastURL]
    cases hl : lastURL rest p with
    | some u =>
      simp only [false_iff, reduceCtorEq]
      intro h
      have := ih.mpr (fun q hq => h q (List.mem_cons_of_mem _ hq))
      rw [hl] at this
      cases this
    | none =>
      have hrest := ih.mp hl
      by_cases hp : pu.Path = p
      · simp [hp]
      · simp only [hp, if_false, true_iff]
        intro q hq
        rcases List.mem_cons.mp hq with rfl | hq
        · exact hp
        · exact hrest q hq

/-- The last record with a given path decides `lastURL`. -/
theorem lastURL_of_last (r : List pathURL) (i : Nat) (hi : i < r.length)
    (hlast : ∀ j (hj : j < r.length), i < j → (r.get ⟨j, hj⟩).Path ≠ (r.get ⟨i, hi⟩).Path) :
    lastURL r (r.get ⟨i, hi⟩).Path = some (r.get ⟨i, hi⟩).URL := by
  induction r generalizing i with
  | nil => simp at hi
  | cons pu rest ih =>
    cases i with
    | zero =>
      have hnone : lastURL rest pu.Path = none := by
        rw [lastURL_eq_none]
        intro q hq
        obtain ⟨j, hj, rfl⟩ := List.getElem_of_mem hq
        exact hlast (j + 1) (by simpa using hj) (by omega)
      simp [lastURL, hnone]
    | succ n =>
      have hn : n < rest.length := by simpa using hi
      have := ih n hn (fun j hj hlt => hlast (j + 1) (by simpa using hj) (by omega))
      simp only [List.get_eq_getElem, List.getElem_cons_succ] at this ⊢
      simp [lastURL, this]


/-! ## MapHandler -/

/-- C1: for every mapping, fallback, response writer and request, one invocation of the
handler built by MapHandler makes exactly one outgoing call.  When the request path is a
key of the mapping (the comma-ok lookup reports true exactly then), the call is
http.Redirect with the same writer and request, the value stored under the path as
destination and status 302, and the fallback is not called.  Otherwise the call is the
fallback with the same writer and request, and there is no redirect. -/
theorem MapHandler_redirect_or_fallback {W H : Type} (m : GoMap) (f : H)
    (eff : MapEffect W H) (w : W) (r : Request) :
    ((m.index r.URL.Path).2 = true ↔ r.URL.Path ∈ m.keys) ∧
    ((MapHandler m f).call eff w r).2 =
      (if r.URL.Path ∈ m.keys then [Call.Redirect w r (m.index r.URL.Path).1 302]
       else [Call.ServeHTTP f w r]) := by
  refine ⟨GoMap.index_snd_iff m _, ?_⟩
  rw [call_snd]
  rfl

/-- C1, worked example: with the mapping of the scenario, the path /urlshort-godoc is
redirected to the godoc URL with status 302 and the path /unknown goes to the fallback. -/
theorem MapHandler_redirect_or_fallback_witness :
    ((MapHandler godocMap "notFound").call noEffect 0 ⟨⟨"/urlshort-godoc"⟩⟩).2 =
        [Call.Redirect 0 ⟨⟨"/urlshort-godoc"⟩⟩
          "https://godoc.org/github.com/gophercises/urlshort" 302] ∧
    ((MapHandler godocMap "notFound").call noEffect 0 ⟨⟨"/unknown"⟩⟩).2 =
        [Call.ServeHTTP "notFound" 0 ⟨⟨"/unknown"⟩⟩] :=
  ⟨(MapHandler_redirect_or_fallback godocMap "notFound" noEffect 0
      ⟨⟨"/urlshort-godoc"⟩⟩).2.trans (by decide),
   (MapHandler_redirect_or_fallback godocMap "notFound" noEffect 0
      ⟨⟨"/unknown"⟩⟩).2.trans (by decide)⟩

/-- C5: for every fallback, writer and request (whatever its path, the empty string
included), the handler built by MapHandler over the empty mapping makes one call, to the
fallback with the same writer and request, and no redirect; the same holds for the nil
mapping. -/
theorem MapHandler_empty_delegates {W H : Type} (f : H) (eff : MapEffect W H) (w : W)
    (r : Request) :
    ((MapHandler GoMap.make f).call eff w r).2 = [Call.ServeHTTP f w r] ∧
    ((MapHandler GoMap.nil f).call eff w r).2 = [Call.ServeHTTP f w r] := by
  constructor
  · rw [call_snd]
    simp [expectedCalls, GoMap.make, GoMap.keys]
  · rw [call_snd]
    simp [expectedCalls, GoMap.keys]

/-- C6: the handler built by MapHandler redirects exactly when some key of the mapping is
equal, as a string, to the request path; and over a mapping with the single entry k to u,
every request whose path differs from k is handed to the fallback. -/
theorem MapHandler_exact_match {W H : Type} (m : GoMap) (f : H) (eff : MapEffect W H)
    (w : W) (r : Request) :
    ((∃ dest, ((MapHandler m f).call eff w r).2 = [Call.Redirect w r dest 302]) ↔
      ∃ k ∈ m.keys, k = r.URL.Path) ∧
    (∀ k u : String, r.URL.Path ≠ k →
      ((MapHandler (GoMap.table (Finmap.singleton k u)) f).call eff w r).2 =
        [Call.ServeHTTP f w r]) := by
  constructor
  · rw [call_snd]
    simp only [expectedCalls]
    by_cases hk : r.URL.Path ∈ m.keys
    · simp [hk]
    · simp [hk]
  · intro k u hne
    rw [call_snd]
    simp [expectedCalls, GoMap.keys, hne]

/-- C6, worked example: over the single entry /foo, the paths /Foo, /foo/ and foo are
each handed to the fallback. -/
theorem MapHandler_exact_match_witness :
    ((MapHandler (GoMap.table (Finmap.singleton "/foo" "https://foo.com")) "fb").call
        noEffect 0 ⟨⟨"/Foo"⟩⟩).2 = [Call.ServeHTTP "fb" 0 ⟨⟨"/Foo"⟩⟩] ∧
    ((MapHandler (GoMap.table (Finmap.singleton "/foo" "https://foo.com")) "fb").call
        noEffect 0 ⟨⟨"/foo/"⟩⟩).2 = [Call.ServeHTTP "fb" 0 ⟨⟨"/foo/"⟩⟩] ∧
    ((MapHandler (GoMap.table (Finmap.singleton "/foo" "https://foo.com")) "fb").call
        noEffect 0 ⟨⟨"foo"⟩⟩).2 = [Call.ServeHTTP "fb" 0 ⟨⟨"foo"⟩⟩] :=
  ⟨(MapHandler_exact_match GoMap.nil "fb" noEffect 0 ⟨⟨"/Foo"⟩⟩).2 "/foo" "https://foo.com"
      (by decide),
   (MapHandler_exact_match GoMap.nil "fb" noEffect 0 ⟨⟨"/foo/"⟩⟩).2 "/foo" "https://foo.com"
      (by decide),
   (MapHandler_exact_match GoMap.nil "fb" noEffect 0 ⟨⟨"foo"⟩⟩).2 "/foo" "https://foo.com"
      (by decide)⟩

/-- C8, counterexample: the fallback may hold the map the closure reads.  Over the empty
mapping, with a fallback that stores the path it is given, the first request for /a goes
to the fallback and leaves the mapping with the key /a, and the second request for /a is
redirected: the mapping is modified by the invocation and the decision for /a depends on
the earlier request. -/
theorem MapHandler_never_modifies_mapping_counterexample :
    ((MapHandler GoMap.make "store").call storeEffect 0 ⟨⟨"/a"⟩⟩).1.pathsToUrls ≠
      GoMap.make ∧
    "/a" ∉ GoMap.make.keys ∧
    "/a" ∈ ((MapHandler GoMap.make "store").call storeEffect 0 ⟨⟨"/a"⟩⟩).1.pathsToUrls.keys ∧
    ((MapHandler GoMap.make "store").serveAll storeEffect
        [(0, ⟨⟨"/a"⟩⟩), (1, ⟨⟨"/a"⟩⟩)]).2 =
      [[Call.ServeHTTP "store" 0 ⟨⟨"/a"⟩⟩],
       [Call.Redirect 1 ⟨⟨"/a"⟩⟩ "https://stored.example" 302]] := by
  refine ⟨?_, by decide, by decide, by decide⟩
  intro h
  have hk : "/a" ∈
      ((MapHandler GoMap.make "store").call storeEffect 0 ⟨⟨"/a"⟩⟩).1.pathsToUrls.keys := by
    decide
  rw [h] at hk
  exact absurd hk (by decide)

/-- C8, amended: the body of the handler built by MapHandler only reads the mapping.  When
the request path is a key, the mapping after the invocation is the mapping before; when
it is not, the mapping after the invocation is what fallback.ServeHTTP left.  So if the
fallback, whenever it is invoked, leaves the mapping m as it found it, then m is unchanged
after one invocation and after any run of invocations, and after any earlier requests
the calls made for a request are the ones decided by m and the request path alone. -/
theorem MapHandler_reads_mapping_only {W H : Type} (m : GoMap) (f : H)
    (eff : MapEffect W H) :
    (∀ (w : W) (r : Request), ((MapHandler m f).call eff w r).1.pathsToUrls =
      if r.URL.Path ∈ m.keys then m else m.update (eff f w r)) ∧
    ((∀ (w : W) (r : Request), r.URL.Path ∉ m.keys → m.update (eff f w r) = m) →
      (∀ (w : W) (r : Request), ((MapHandler m f).call eff w r).1.pathsToUrls = m) ∧
      (∀ earlier : List (W × Request),
        ((MapHandler m f).serveAll eff earlier).1.pathsToUrls = m) ∧
      (∀ (earlier : List (W × Request)) (w : W) (r : Request),
        (((MapHandler m f).serveAll eff earlier).1.call eff w r).2 =
          (if r.URL.Path ∈ m.keys then [Call.Redirect w r (m.index r.URL.Path).1 302]
           else [Call.ServeHTTP f w r]))) := by
  refine ⟨?_, fun hf => ⟨?_, ?_, ?_⟩⟩
  · intro w r
    rw [call_eq_expected]
    rfl
  · intro w r
    rw [call_fst_of_frame m f eff hf]
    rfl
  · intro earlier
    rw [serveAll_fst m f eff hf]
    rfl
  · intro earlier w r
    rw [serveAll_fst m f eff hf, call_snd]
    rfl

/-- C8, worked example: with the mapping of the scenario and a fallback that holds no
reference to it, the mapping is unchanged after the requests /unknown and /urlshort-godoc,
and a later request for /unknown still goes to the fallback. -/
theorem MapHandler_reads_mapping_only_witness :
    (∀ (w : Nat) (r : Request), r.URL.Path ∉ godocMap.keys →
      godocMap.update (noEffect "notFound" w r) = godocMap) ∧
    ((MapHandler godocMap "notFound").serveAll noEffect
      [(0, ⟨⟨"/unknown"⟩⟩), (1, ⟨⟨"/urlshort-godoc"⟩⟩)]).1.pathsToUrls = godocMap ∧
    (((MapHandler godocMap "notFound").serveAll noEffect
      [(0, ⟨⟨"/unknown"⟩⟩), (1, ⟨⟨"/urlshort-godoc"⟩⟩)]).1.call noEffect 2
        ⟨⟨"/unknown"⟩⟩).2 = [Call.ServeHTTP "notFound" 2 ⟨⟨"/unknown"⟩⟩] :=
  ⟨fun _ _ _ => rfl,
   ((MapHandler_reads_mapping_only godocMap "notFound" noEffect).2
      (fun _ _ _ => rfl)).2.1 [(0, ⟨⟨"/unknown"⟩⟩), (1, ⟨⟨"/urlshort-godoc"⟩⟩)],
   (((MapHandler_reads_mapping_only godocMap "notFound" noEffect).2
      (fun _ _ _ => rfl)).2.2 [(0, ⟨⟨"/unknown"⟩⟩), (1, ⟨⟨"/urlshort-godoc"⟩⟩)] 2
        ⟨⟨"/unknown"⟩⟩).trans (by decide)⟩


/-! ## pathURLToMap -/

theorem seqAssign_eq (r : List pathURL) (n : Nat) (hn : n ≤ r.length) :
    seqAssign r n = some (GoMap.table (insertAll ∅ (r.take n))) := by
  induction n with
  | zero => simp [seqAssign, GoMap.make, insertAll_nil]
  | succ n ih =>
    have hlt : n < r.length := hn
    rw [seqAssign, ih (Nat.le_of_lt hlt), List.getElem?_eq_getElem hlt]
    simp only [GoMap.assign, List.take_succ, List.getElem?_eq_getElem hlt, Option.toList,
      insertAll_append]
    rfl

theorem index_insertAll (r : List pathURL) (k : String) :
    (GoMap.table (insertAll ∅ r)).index k =
      ((lastURL r k).getD "", (lastURL r k).isSome) := by
  rw [GoMap.index_table, lookup_insertAll]
  cases lastURL r k <;> simp [Finmap.lookup_empty]

theorem mem_keys_insertAll (r : List pathURL) (k : String) :
    k ∈ (GoMap.table (insertAll ∅ r)).keys ↔ ∃ pu ∈ r, pu.Path = k := by
  simp [GoMap.keys, keys_insertAll]

/-- C2: pathURLToMap returns the map obtained from the empty map by the assignments
mapping[r[i].Path] = r[i].URL for i = 0 .. len(r)-1 in order.  In that map a record that
is the last one with its path gives the value stored under that path, the keys are
exactly the paths that occur in r, and a path that occurs in no record is not a key. -/
theorem pathURLToMap_sequential_last_wins (r : List pathURL) :
    pathURLToMap r = seqAssign r r.length ∧
    ∃ m, pathURLToMap r = some m ∧
      (∀ (i : Nat) (hi : i < r.length),
        (∀ (j : Nat) (hj : j < r.length), i < j →
          (r.get ⟨j, hj⟩).Path ≠ (r.get ⟨i, hi⟩).Path) →
        m.index (r.get ⟨i, hi⟩).Path = ((r.get ⟨i, hi⟩).URL, true)) ∧
      (∀ p : String, p ∈ m.keys ↔ ∃ pu ∈ r, pu.Path = p) ∧
      (∀ p : String, (∀ pu ∈ r, pu.Path ≠ p) → p ∉ m.keys ∧ m.index p = ("", false)) := by
  refine ⟨?_, GoMap.table (insertAll ∅ r), pathURLToMap_eq r, ?_, ?_, ?_⟩
  · rw [pathURLToMap_eq, seqAssign_eq r r.length (Nat.le_refl _), List.take_length]
  · intro i hi hlast
    rw [index_insertAll, lastURL_of_last r i hi hlast]
    rfl
  · intro p
    exact mem_keys_insertAll r p
  · intro p hp
    constructor
    · rw [mem_keys_insertAll]
      rintro ⟨pu, hpu, rfl⟩
      exact hp pu hpu rfl
    · rw [index_insertAll, lastURL_eq_none.mpr hp]
      rfl

/-- C2, worked example: the records [(/a,X),(/b,Y),(/a,Z)] give the map with /a bound to
Z and /b bound to Y, and no other key. -/
theorem pathURLToMap_sequential_last_wins_witness :
    ∃ m, pathURLToMap recsABA = some m ∧ m.index "/a" = ("Z", true) ∧
      m.index "/b" = ("Y", true) ∧ "/c" ∉ m.keys ∧ m.len = 2 := by
  obtain ⟨_, m, hm, hlast, _, hnot⟩ := pathURLToMap_sequential_last_wins recsABA
  refine ⟨m, hm, ?_, ?_, ?_, ?_⟩
  · exact hlast 2 (by decide) (fun j hj hlt => by
      simp only [recsABA, List.length_cons, List.length_nil] at hj
      omega)
  · refine hlast 1 (by decide) (fun j hj hlt => ?_)
    have hj2 : j = 2 := by
      simp only [recsABA, List.length_cons, List.length_nil] at hj
      omega
    subst hj2
    show "/a" ≠ "/b"
    decide
  · exact (hnot "/c" (by decide)).1
  · have h2 : pathURLToMap recsABA = some (GoMap.table (insertAll ∅ recsABA)) :=
      pathURLToMap_eq recsABA
    rw [hm] at h2
    cases h2
    decide

/-- C7: pathURLToMap returns a map, and never panics, on every list of records; on the
empty list the map it returns has no keys. -/
theorem pathURLToMap_total (r : List pathURL) :
    (∃ t, pathURLToMap r = some (GoMap.table t)) ∧
    (∃ m, pathURLToMap [] = some m ∧ m.keys = ∅ ∧ m.len = 0) := by
  refine ⟨⟨_, pathURLToMap_eq r⟩, GoMap.table ∅, ?_, ?_, ?_⟩
  · rw [pathURLToMap_eq]; rfl
  · rfl
  · rfl

/-- C9: the map of r1 ++ r2 is the map of r1 overridden by the map of r2: a key of the
map of r2 reads as in the map of r2, every other key reads as in the map of r1.  Its keys
are those of both maps, and a key whose reading differs from the map of r1 is a path of
r2. -/
theorem pathURLToMap_append (r1 r2 : List pathURL) :
    ∃ m1 m2 m, pathURLToMap r1 = some m1 ∧ pathURLToMap r2 = some m2 ∧
      pathURLToMap (r1 ++ r2) = some m ∧
      (∀ k : String, m.index k = if k ∈ m2.keys then m2.index k else m1.index k) ∧
      m.keys = m1.keys ∪ m2.keys ∧ m1.keys ⊆ m.keys ∧
      (∀ k : String, m.index k ≠ m1.index k → ∃ pu ∈ r2, pu.Path = k) := by
  have hidx : ∀ k : String, (GoMap.table (insertAll ∅ (r1 ++ r2))).index k =
      if k ∈ (GoMap.table (insertAll ∅ r2)).keys then (GoMap.table (insertAll ∅ r2)).index k
      else (GoMap.table (insertAll ∅ r1)).index k := by
    intro k
    by_cases hmem : k ∈ (GoMap.table (insertAll ∅ r2)).keys
    · rw [if_pos hmem]
      obtain ⟨pu, hpu, he⟩ := (mem_keys_insertAll r2 k).mp hmem
      simp only [GoMap.index_table, insertAll_append, lookup_insertAll, Finmap.lookup_empty]
      cases hl : lastURL r2 k with
      | none => exact absurd he (lastURL_eq_none.mp hl pu hpu)
      | some u => simp
    · rw [if_neg hmem]
      have hnone : lastURL r2 k = none :=
        lastURL_eq_none.mpr
          (fun pu hpu he => hmem ((mem_keys_insertAll r2 k).mpr ⟨pu, hpu, he⟩))
      simp [GoMap.index_table, insertAll_append, lookup_insertAll, hnone]
  refine ⟨_, _, _, pathURLToMap_eq r1, pathURLToMap_eq r2, pathURLToMap_eq (r1 ++ r2),
    hidx, ?_, ?_, ?_⟩
  · ext k
    simp only [Finset.mem_union, mem_keys_insertAll, List.mem_append]
    constructor
    · rintro ⟨pu, h1 | h2, rfl⟩
      · exact Or.inl ⟨pu, h1, rfl⟩
      · exact Or.inr ⟨pu, h2, rfl⟩
    · rintro (⟨pu, h1, rfl⟩ | ⟨pu, h2, rfl⟩)
      · exact ⟨pu, Or.inl h1, rfl⟩
      · exact ⟨pu, Or.inr h2, rfl⟩
  · intro k hk
    obtain ⟨pu, hpu, he⟩ := (mem_keys_insertAll r1 k).mp hk
    exact (mem_keys_insertAll (r1 ++ r2) k).mpr ⟨pu, List.mem_append_left r2 hpu, he⟩
  · intro k hk
    rw [hidx k] at hk
    by_contra hcon
    rw [← mem_keys_insertAll] at hcon
    simp [hcon] at hk


theorem lastURL_eq_some_iff {r : List pathURL}
    (hd : r.Pairwise (fun a b => a.Path ≠ b.Path)) (p u : String) :
    lastURL r p = some u ↔ (⟨p, u⟩ : pathURL) ∈ r := by
  induction r generalizing u with
  | nil => simp [lastURL]
  | cons pu rest ih =>
    obtain ⟨hhead, htail⟩ := List.pairwise_cons.mp hd
    rw [lastURL, List.mem_cons]
    cases hl : lastURL rest p with
    | some v =>
      have hv : (⟨p, v⟩ : pathURL) ∈ rest := (ih htail v).mp hl
      have hne : ¬ ((⟨p, u⟩ : pathURL) = pu) := fun h => hhead _ hv (by rw [← h])
      rw [← ih htail u, hl]
      simp [hne]
    | none =>
      have hno := lastURL_eq_none.mp hl
      have hnot : (⟨p, u⟩ : pathURL) ∉ rest := fun h => hno _ h rfl
      obtain ⟨q, v⟩ := pu
      by_cases hq : q = p
      · subst hq
        simp [hnot, eq_comm]
      · have hq2 : ¬ (p = q) := fun h => hq h.symm
        simp [hnot, hq, hq2]

theorem lastURL_perm {r1 r2 : List pathURL} (hp : r1.Perm r2)
    (hd : r2.Pairwise (fun a b => a.Path ≠ b.Path)) (p : String) :
    lastURL r1 p = lastURL r2 p := by
  have hd1 : r1.Pairwise (fun a b => a.Path ≠ b.Path) :=
    (hp.pairwise_iff (fun h => Ne.symm h)).mpr hd
  apply Option.ext
  intro u
  simp only [Option.mem_def]
  rw [lastURL_eq_some_iff hd1, lastURL_eq_some_iff hd]
  exact hp.mem_iff

theorem card_keys_insertAll (r : List pathURL) :
    (GoMap.table (insertAll ∅ r)).len = (r.map pathURL.Path).dedup.length := by
  simp [GoMap.len, GoMap.keys, keys_insertAll, List.card_toFinset]

/-- C10: the map pathURLToMap returns has at most len(r) keys, and exactly len(r) keys if
and only if the paths of r are pairwise distinct; when they are, pathURLToMap returns the
same map on every permutation of r. -/
theorem pathURLToMap_len_and_order (r : List pathURL) :
    ∃ m, pathURLToMap r = some m ∧ m.len ≤ r.length ∧
      (m.len = r.length ↔ r.Pairwise (fun a b => a.Path ≠ b.Path)) ∧
      (r.Pairwise (fun a b => a.Path ≠ b.Path) →
        ∀ r1 : List pathURL, r1.Perm r → pathURLToMap r1 = some m) := by
  refine ⟨_, pathURLToMap_eq r, ?_, ?_, ?_⟩
  · rw [card_keys_insertAll]
    simpa using (List.dedup_sublist (r.map pathURL.Path)).length_le
  · rw [card_keys_insertAll]
    have hnd : (r.map pathURL.Path).Nodup ↔ r.Pairwise (fun a b => a.Path ≠ b.Path) := by
      simp [List.Nodup, List.pairwise_map]
    rw [← hnd]
    constructor
    · intro hlen
      have hsub := List.dedup_sublist (r.map pathURL.Path)
      have heq := hsub.eq_of_length (by simpa using hlen)
      exact List.dedup_eq_self.mp heq
    · intro h
      rw [List.dedup_eq_self.mpr h]
      simp
  · intro hd r1 hp
    rw [pathURLToMap_eq]
    congr 2
    apply Finmap.ext_lookup
    intro k
    rw [lookup_insertAll, lookup_insertAll, lastURL_perm hp hd k]

/-- C10, worked example: the records [(/a,X),(/b,Y)] have distinct paths; their map has
two keys and is also the map of [(/b,Y),(/a,X)]. -/
theorem pathURLToMap_len_and_order_witness :
    [(⟨"/a", "X"⟩ : pathURL), ⟨"/b", "Y"⟩].Pairwise (fun a b => a.Path ≠ b.Path) ∧
    [(⟨"/b", "Y"⟩ : pathURL), ⟨"/a", "X"⟩].Perm [⟨"/a", "X"⟩, ⟨"/b", "Y"⟩] ∧
    ∃ m, pathURLToMap [⟨"/a", "X"⟩, ⟨"/b", "Y"⟩] = some m ∧ m.len = 2 ∧
      pathURLToMap [⟨"/b", "Y"⟩, ⟨"/a", "X"⟩] = some m := by
  have hd : [(⟨"/a", "X"⟩ : pathURL), ⟨"/b", "Y"⟩].Pairwise (fun a b => a.Path ≠ b.Path) := by
    decide
  have hp : [(⟨"/b", "Y"⟩ : pathURL), ⟨"/a", "X"⟩].Perm [⟨"/a", "X"⟩, ⟨"/b", "Y"⟩] :=
    List.Perm.swap _ _ _
  obtain ⟨m, hm, _, hlen, hperm⟩ := pathURLToMap_len_and_order [⟨"/a", "X"⟩, ⟨"/b", "Y"⟩]
  exact ⟨hd, hp, m, hm, hlen.mpr hd, hperm hd _ hp⟩


/-- C9, worked example: appending [(/a,Z)] to [(/a,X),(/b,Y)] changes the value of /a to
Z and leaves /b bound to Y. -/
theorem pathURLToMap_append_witness :
    ∃ m1 m2 m, pathURLToMap [⟨"/a", "X"⟩, ⟨"/b", "Y"⟩] = some m1 ∧
      pathURLToMap [⟨"/a", "Z"⟩] = some m2 ∧
      pathURLToMap ([⟨"/a", "X"⟩, ⟨"/b", "Y"⟩] ++ [⟨"/a", "Z"⟩]) = some m ∧
      m.index "/a" = m2.index "/a" ∧ m2.index "/a" = ("Z", true) ∧
      m.index "/b" = m1.index "/b" ∧ m1.index "/b" = ("Y", true) := by
  obtain ⟨m1, m2, m, h1, h2, h, hidx, _, _, _⟩ :=
    pathURLToMap_append [⟨"/a", "X"⟩, ⟨"/b", "Y"⟩] [⟨"/a", "Z"⟩]
  have e1 := pathURLToMap_eq [⟨"/a", "X"⟩, ⟨"/b", "Y"⟩]
  have e2 := pathURLToMap_eq [⟨"/a", "Z"⟩]
  rw [h1] at e1
  rw [h2] at e2
  cases e1
  cases e2
  refine ⟨_, _, m, h1, h2, h, ?_, by decide, ?_, by decide⟩
  · rw [hidx "/a", if_pos (by decide)]
  · rw [hidx "/b", if_neg (by decide)]

/-! ## YAMLHandler and JSONHandler -/

theorem YAMLHandler_of_error {H : Type} (u : Unmarshal) (b : List UInt8) (f : H)
    (out : List pathURL) (err : GoError) (hp : parseYaml u b [] = (out, some err)) :
    YAMLHandler u b f = some (none, some err) := by
  simp only [YAMLHandler, hp]

theorem YAMLHandler_of_ok {H : Type} (u : Unmarshal) (b : List UInt8) (f : H)
    (out : List pathURL) (hp : parseYaml u b [] = (out, none)) :
    YAMLHandler u b f = some (some (MapHandler (GoMap.table (insertAll ∅ out)) f), none) := by
  simp only [YAMLHandler, hp, pathURLToMap_eq]

theorem JSONHandler_of_error {H : Type} (u : Unmarshal) (b : List UInt8) (f : H)
    (out : List pathURL) (err : GoError) (hp : parseJSON u b [] = (out, some err)) :
    JSONHandler u b f = some (none, some err) := by
  simp only [JSONHandler, hp]

theorem JSONHandler_of_ok {H : Type} (u : Unmarshal) (b : List UInt8) (f : H)
    (out : List pathURL) (hp : parseJSON u b [] = (out, none)) :
    JSONHandler u b f = some (some (MapHandler (GoMap.table (insertAll ∅ out)) f), none) := by
  simp only [JSONHandler, hp, pathURLToMap_eq]

/-- C3: YAMLHandler and JSONHandler always return (they do not panic); the error they
return is exactly the error of parseYaml, respectively parseJSON, so it is non-nil if and
only if the parse step failed; and the returned handler is nil exactly when that error is
non-nil. -/
theorem handlers_error_iff_parse_error {H : Type} (uy uj : Unmarshal) (y j : List UInt8)
    (f : H) :
    (∃ h e, YAMLHandler uy y f = some (h, e) ∧ e = (parseYaml uy y []).2 ∧
      (e ≠ none ↔ (parseYaml uy y []).2 ≠ none) ∧ (h = none ↔ e ≠ none)) ∧
    (∃ h e, JSONHandler uj j f = some (h, e) ∧ e = (parseJSON uj j []).2 ∧
      (e ≠ none ↔ (parseJSON uj j []).2 ≠ none) ∧ (h = none ↔ e ≠ none)) := by
  constructor
  · rcases hp : parseYaml uy y [] with ⟨out, _ | err⟩
    · exact ⟨_, _, YAMLHandler_of_ok uy y f out hp, rfl, by simp, by simp⟩
    · exact ⟨_, _, YAMLHandler_of_error uy y f out err hp, rfl, by simp, by simp⟩
  · rcases hp : parseJSON uj j [] with ⟨out, _ | err⟩
    · exact ⟨_, _, JSONHandler_of_ok uj j f out hp, rfl, by simp, by simp⟩
    · exact ⟨_, _, JSONHandler_of_error uj j f out err hp, rfl, by simp, by simp⟩

/-- C3, worked example: on a malformed document (an unterminated YAML flow sequence, a
truncated JSON array) both decoders fail after one record was stored; each handler
constructor returns the nil handler and the decoder's error. -/
theorem handlers_error_iff_parse_error_witness :
    YAMLHandler yamlDecoderFoo yamlUnterminated "fb" =
      some (none, some ⟨"yaml: did not find expected node content"⟩) ∧
    JSONHandler jsonDecoderFoo jsonTruncated "fb" =
      some (none, some ⟨"unexpected end of JSON input"⟩) := by
  obtain ⟨⟨h, e, hy, he, _, hh⟩, ⟨h2, e2, hj, he2, _, hh2⟩⟩ :=
    handlers_error_iff_parse_error yamlDecoderFoo jsonDecoderFoo yamlUnterminated
      jsonTruncated "fb"
  have hey : (parseYaml yamlDecoderFoo yamlUnterminated []).2 =
      some ⟨"yaml: did not find expected node content"⟩ := by decide
  have hej : (parseJSON jsonDecoderFoo jsonTruncated []).2 =
      some ⟨"unexpected end of JSON input"⟩ := by decide
  rw [hey] at he
  rw [hej] at he2
  subst he he2
  rw [hy, hj, hh.mpr (by simp), hh2.mpr (by simp)]
  exact ⟨rfl, rfl⟩

/-- C4: when the YAML parse step succeeds with records r, YAMLHandler returns a handler
that makes, on every request, the calls of MapHandler applied to pathURLToMap r and the
same fallback; likewise for JSONHandler; so when a YAML input and a JSON input parse to
the same records, the two handlers make the same calls on every request. -/
theorem handlers_refine_MapHandler {W H : Type} (uy uj : Unmarshal) (y j : List UInt8)
    (f : H) (r : List pathURL) :
    (parseYaml uy y [] = (r, none) →
      ∃ m h, pathURLToMap r = some m ∧ YAMLHandler uy y f = some (some h, none) ∧
        ∀ (eff : MapEffect W H) (w : W) (req : Request),
          h.call eff w req = (MapHandler m f).call eff w req) ∧
    (parseJSON uj j [] = (r, none) →
      ∃ m h, pathURLToMap r = some m ∧ JSONHandler uj j f = some (some h, none) ∧
        ∀ (eff : MapEffect W H) (w : W) (req : Request),
          h.call eff w req = (MapHandler m f).call eff w req) ∧
    (parseYaml uy y [] = (r, none) → parseJSON uj j [] = (r, none) →
      ∃ hy hj, YAMLHandler uy y f = some (some hy, none) ∧
        JSONHandler uj j f = some (some hj, none) ∧
        ∀ (eff : MapEffect W H) (w : W) (req : Request),
          (hy.call eff w req).2 = (hj.call eff w req).2) := by
  refine ⟨?_, ?_, ?_⟩
  · intro hp
    exact ⟨_, _, pathURLToMap_eq r, YAMLHandler_of_ok uy y f r hp, fun _ _ _ => rfl⟩
  · intro hp
    exact ⟨_, _, pathURLToMap_eq r, JSONHandler_of_ok uj j f r hp, fun _ _ _ => rfl⟩
  · intro hpy hpj
    exact ⟨_, _, YAMLHandler_of_ok uy y f r hpy, JSONHandler_of_ok uj j f r hpj,
      fun _ _ _ => rfl⟩

/-- C4, worked example: a YAML and a JSON document that both decode to the records
[(/foo, https://foo.com)]; both handlers redirect /foo to https://foo.com and hand /bar
to the fallback. -/
theorem handlers_refine_MapHandler_witness :
    parseYaml yamlDecoderFoo yamlFoo [] = (recsFoo, none) ∧
    parseJSON jsonDecoderFoo jsonFoo [] = (recsFoo, none) ∧
    ∃ hy hj, YAMLHandler yamlDecoderFoo yamlFoo "fb" = some (some hy, none) ∧
      JSONHandler jsonDecoderFoo jsonFoo "fb" = some (some hj, none) ∧
      (hy.call noEffect 0 ⟨⟨"/foo"⟩⟩).2 =
        [Call.Redirect 0 ⟨⟨"/foo"⟩⟩ "https://foo.com" 302] ∧
      (hj.call noEffect 0 ⟨⟨"/foo"⟩⟩).2 =
        [Call.Redirect 0 ⟨⟨"/foo"⟩⟩ "https://foo.com" 302] ∧
      (hy.call noEffect 0 ⟨⟨"/bar"⟩⟩).2 = [Call.ServeHTTP "fb" 0 ⟨⟨"/bar"⟩⟩] ∧
      (hj.call noEffect 0 ⟨⟨"/bar"⟩⟩).2 = [Call.ServeHTTP "fb" 0 ⟨⟨"/bar"⟩⟩] := by
  have hpy : parseYaml yamlDecoderFoo yamlFoo [] = (recsFoo, none) := by decide
  have hpj : parseJSON jsonDecoderFoo jsonFoo [] = (recsFoo, none) := by decide
  obtain ⟨hY, _, hYJ⟩ :=
    @handlers_refine_MapHandler Nat String yamlDecoderFoo jsonDecoderFoo yamlFoo jsonFoo "fb"
      recsFoo
  obtain ⟨m, h, hm, hyh, hbeh⟩ := hY hpy
  obtain ⟨hy, hj, hyy, hjj, hsame⟩ := hYJ hpy hpj
  have em := pathURLToMap_eq recsFoo
  rw [hm] at em
  cases em
  rw [hyh] at hyy
  cases hyy
  refine ⟨hpy, hpj, h, hj, hyh, hjj, ?_, ?_, ?_, ?_⟩
  · rw [hbeh]; decide
  · rw [← hsame, hbeh]; decide
  · rw [hbeh]; decide
  · rw [← hsame, hbeh]; decide

end urlshort
